import Mathlib

/-!
Verification of the shuffled Louvain random-restart pipeline
(`shuffled_louvain.py`).  The module runs a canonical Louvain community
detection on a graph, then `numiter - 1` additional detections on copies of
the graph whose node labels were shuffled by a fresh random permutation,
recovers each result in the original node order, and keeps the
(modularity, membership) pair with the strictly highest modularity.

The detection engine itself (igraph's `community_multilevel` together with
`modularity`) is external to the repository; it is passed around here as an
abstract function `detect : Nat → List (Nat × Nat) → List Nat × ℚ` taking a
node count and an edge list and returning a membership list and a modularity
score.  The randomness of `random.shuffle` is modelled by an explicit stream
of shuffled node sequences, one per trial.
-/

/-- Tokens carried by the task channel of the pipeline: a numbered dummy task
or the poison pill "STOP" that tells a worker to shut down. -/
inductive Token where
  | task : Nat → Token
  | stop : Token
deriving DecidableEq

/-- Test whether a channel token is the poison pill "STOP". -/
def Token.isStop : Token → Bool
  | Token.stop => true
  | _ => false

/-- Embedding of `add2inqueue`: the task generator puts one dummy task into
the input queue for each of the `n` requested extra trials (the loop
`for i in range(n): input_queue.put(i)`), then one poison pill per worker
(the loop `for i in range(nprocs): input_queue.put('STOP')`). -/
def add2inqueue (n nprocs : Nat) : List Token :=
  (List.range n).map Token.task ++ (List.range nprocs).map (fun _ => Token.stop)

/-- Embedding of the call `add2inqueue(numiter - 1, numprocs)` made by
`shuffled_comdet`: the token sequence the entry point feeds into the task
channel. -/
def entry_task_tokens (numiter w : Nat) : List Token :=
  add2inqueue (numiter - 1) w

/-- Embedding of `get_new_edgelist`: relabel every edge `(u, v)` of the edge
list to `(rifrullo[u], rifrullo[v])`, keeping the order of the edges
(the loop appends `(rifrullo[edlist[j][0]], rifrullo[edlist[j][1]])` for
`j` in order). -/
def get_new_edgelist (edlist : List (Nat × Nat)) (rifrullo : List Nat) :
    List (Nat × Nat) :=
  edlist.map (fun e => (rifrullo.getD e.1 0, rifrullo.getD e.2 0))

/-- Embedding of the membership-recovery step of `comdet_worker`:
`mshiplistaux = [membaux[rifrullo[i]] for i in range(len(membaux))]`. -/
def recover_membership (membaux rifrullo : List Nat) : List Nat :=
  (List.range membaux.length).map (fun i => membaux.getD (rifrullo.getD i 0) 0)

/-- Embedding of the body of `comdet_worker` for a single task: relabel the
edges with the shuffled node sequence `rifrullo`, run the detection engine on
the relabeled graph with the same `n` vertices, and recover the membership in
the original node order; the pair `(gauxmod, mshiplistaux)` is what the worker
puts on the output queue. -/
def comdet_worker (detect : Nat → List (Nat × Nat) → List Nat × ℚ)
    (n : Nat) (edlist : List (Nat × Nat)) (rifrullo : List Nat) :
    ℚ × List Nat :=
  let newedges := get_new_edgelist edlist rifrullo
  let res := detect n newedges
  (res.2, recover_membership res.1 rifrullo)

/-- Embedding of one update of `outqueue2res`: the accumulator
`(mod_res, memship_res)` is replaced by the incoming result exactly when the
incoming modularity strictly exceeds the stored one
(`if modaux > mod_res.value`). -/
def reduceStep (acc val : ℚ × List Nat) : ℚ × List Nat :=
  if val.1 > acc.1 then val else acc

/-- Embedding of `outqueue2res`: fold every non-poison-pill result taken from
the output queue into the shared accumulator `(mod_res, memship_res)`. -/
def outqueue2res (init : ℚ × List Nat) (results : List (ℚ × List Nat)) :
    ℚ × List Nat :=
  results.foldl reduceStep init

/-- Embedding of the worker-pool size chosen by `shuffled_comdet`:
`cpu_count - 1` worker processes when `parallel` is true, exactly one
otherwise. -/
def numprocs (parallel : Bool) (cpu_count : Nat) : Nat :=
  if parallel then cpu_count - 1 else 1

/-- Embedding of `shuffled_comdet` as the sequential dataflow of the
pipeline: run the canonical detection on the unpermuted edge list, seed the
accumulator `(mod_res, memship_res)` with its modularity and membership, run
one `comdet_worker` trial per task token of `add2inqueue (numiter - 1)` with
the shuffled node sequence drawn for that trial, and reduce the results with
`outqueue2res`.  The stream `perms` gives the sequence produced by
`random.shuffle` for each trial index. -/
def shuffled_comdet (detect : Nat → List (Nat × Nat) → List Nat × ℚ)
    (n : Nat) (edgelist : List (Nat × Nat)) (perms : Nat → List Nat)
    (numiter : Nat) : ℚ × List Nat :=
  let first := detect n edgelist
  outqueue2res (first.2, first.1)
    ((List.range (numiter - 1)).map
      (fun i => comdet_worker detect n edgelist (perms i)))

/-- A membership list is a valid assignment over the original node ids of a
graph with `n` nodes: its length equals the node count and every community id
lies in the range `0..n-1`. -/
def valid_membership (n : Nat) (m : List Nat) : Prop :=
  m.length = n ∧ ∀ v ∈ m, v < n

/-- Modelled from the spec: the detection engine (igraph) is external to the
repository, so its notion of node degree is modelled here; the degree of node
`i` is the number of endpoint slots of `i` in the edge list, a self loop
counting twice. -/
def degree (edges : List (Nat × Nat)) (i : Nat) : Nat :=
  edges.countP (fun e => decide (e.1 = i)) +
    edges.countP (fun e => decide (e.2 = i))

/-- Modelled from the spec: the number of edge slots joining nodes `i` and
`j` in the undirected edge list, a self loop counting twice. -/
def adjCount (edges : List (Nat × Nat)) (i j : Nat) : Nat :=
  edges.countP (fun e => decide (e.1 = i ∧ e.2 = j)) +
    edges.countP (fun e => decide (e.1 = j ∧ e.2 = i))

/-- Modelled from the spec: one summand of the Newman modularity of the graph
with the given edge list under membership `m`, for the ordered node pair
`(i, j)`. -/
def modTerm (edges : List (Nat × Nat)) (m : List Nat) (i j : Nat) : ℚ :=
  ((adjCount edges i j : ℚ) -
      (degree edges i : ℚ) * (degree edges j : ℚ) / (2 * (edges.length : ℚ))) *
    (if m.getD i 0 = m.getD j 0 then 1 else 0)

/-- Modelled from the spec: the modularity score of igraph's external
`g.modularity`, taken as the standard Newman modularity of the graph with `n`
nodes and the given undirected edge list under membership `m`; zero for an
empty edge list. -/
def modularity (n : Nat) (edges : List (Nat × Nat)) (m : List Nat) : ℚ :=
  if edges.length = 0 then 0
  else (∑ i ∈ Finset.range n, ∑ j ∈ Finset.range n, modTerm edges m i j) /
    (2 * (edges.length : ℚ))

/-- A concrete deterministic detection engine used to instantiate the
abstract engine on small examples: it puts every node in community `0` and
scores that assignment with the modelled modularity. -/
def trivialDetect (n : Nat) (edges : List (Nat × Nat)) : List Nat × ℚ :=
  (List.replicate n 0, modularity n edges (List.replicate n 0))

/-- C1: for every trial count `tc` passed to the entry point and every worker
count `w`, the task generator emits exactly `tc` task tokens followed by
exactly `w` termination tokens into the task channel; the entry point invoked
with `numiter = tc + 1` passes exactly `tc` to the generator. -/
theorem add2inqueue_emits (tc w : Nat) :
    add2inqueue tc w = (List.range tc).map Token.task ++ List.replicate w Token.stop
    ∧ (add2inqueue tc w).countP (fun t => ! t.isStop) = tc
    ∧ (add2inqueue tc w).countP Token.isStop = w
    ∧ entry_task_tokens (tc + 1) w = add2inqueue tc w := by
  refine ⟨?_, ?_, ?_, rfl⟩
  · simp [add2inqueue, List.map_const']
  · rw [add2inqueue, List.countP_append, List.countP_map]
    have h1 : List.countP ((fun t => ! t.isStop) ∘ Token.task) (List.range tc)
        = (List.range tc).length :=
      List.countP_eq_length.mpr (fun a _ => rfl)
    have h2 : List.countP (fun t => ! t.isStop)
        ((List.range w).map (fun _ => Token.stop)) = 0 := by
      refine List.countP_eq_zero.mpr ?_
      intro a ha
      rcases List.mem_map.1 ha with ⟨b, _, hb⟩
      rw [← hb]
      decide
    rw [h1, h2, List.length_range]
    omega
  · rw [add2inqueue, List.countP_append, List.countP_map]
    have h1 : List.countP (Token.isStop ∘ Token.task) (List.range tc) = 0 := by
      refine List.countP_eq_zero.mpr ?_
      intro a _
      simp [Function.comp, Token.isStop]
    have h2 : List.countP Token.isStop
        ((List.range w).map (fun _ => Token.stop))
        = ((List.range w).map (fun _ => Token.stop)).length :=
      List.countP_eq_length.mpr (fun a ha => by
        rcases List.mem_map.1 ha with ⟨b, _, hb⟩
        rw [← hb]
        rfl)
    rw [h1, h2, List.length_map, List.length_range]
    omega

/-- C3: the reducer's accumulator is seeded with the canonical unpermuted
run's (modularity, membership) pair, every update replaces the accumulator
exactly when the incoming modularity strictly exceeds the stored one, and on
equal modularity the stored (first-seen) pair is kept. -/
theorem outqueue2res_seeded_strict
    (detect : Nat → List (Nat × Nat) → List Nat × ℚ)
    (n : Nat) (E : List (Nat × Nat)) (perms : Nat → List Nat)
    (numiter : Nat) (acc val : ℚ × List Nat) (b : List Nat) :
    shuffled_comdet detect n E perms numiter
      = outqueue2res ((detect n E).2, (detect n E).1)
          ((List.range (numiter - 1)).map
            (fun i => comdet_worker detect n E (perms i)))
    ∧ reduceStep acc val = (if acc.1 < val.1 then val else acc)
    ∧ reduceStep acc (acc.1, b) = acc := by
  refine ⟨rfl, rfl, ?_⟩
  simp [reduceStep]

/-- Auxiliary: folding results into the accumulator never decreases the
stored modularity. -/
lemma foldl_reduceStep_fst_le (init : ℚ × List Nat)
    (rs : List (ℚ × List Nat)) :
    init.1 ≤ (rs.foldl reduceStep init).1 := by
  induction rs generalizing init with
  | nil => exact le_refl _
  | cons r rs ih =>
    refine le_trans ?_ (ih (reduceStep init r))
    unfold reduceStep
    split
    · exact le_of_lt (by assumption)
    · exact le_refl _

/-- C4: for every graph, every permutation stream and every `numiter` (hence
every trial count `numiter - 1 ≥ 0`), the modularity returned by the entry
point is greater than or equal to the modularity of the canonical unpermuted
detection run. -/
theorem shuffled_comdet_mod_ge_canonical
    (detect : Nat → List (Nat × Nat) → List Nat × ℚ)
    (n : Nat) (E : List (Nat × Nat)) (perms : Nat → List Nat)
    (numiter : Nat) :
    (detect n E).2 ≤ (shuffled_comdet detect n E perms numiter).1 := by
  exact foldl_reduceStep_fst_le ((detect n E).2, (detect n E).1) _

/-- C6 counterexample: on a machine with a single CPU, parallel mode creates
`cpu_count - 1 = 0` worker processes, not `max 1 (cpu_count - 1) = 1` as the
claim states. -/
theorem numprocs_parallel_cex : ¬ (numprocs true 1 = max 1 (1 - 1)) := by
  decide

/-- C6 amended: in parallel mode the worker pool has exactly `cpu_count - 1`
worker processes (zero of them when `cpu_count = 1`), and in sequential mode
it has exactly one worker process. -/
theorem numprocs_amended (c : Nat) :
    numprocs true c = c - 1 ∧ numprocs false c = 1 := by
  exact ⟨rfl, rfl⟩

/-- C7: for every graph with at least one edge, calling the entry point with
trial count `0` (that is, `numiter = 1`) returns exactly the canonical
unpermuted detection result, its modularity and its membership both
unchanged. -/
theorem trial_count_zero_canonical
    (detect : Nat → List (Nat × Nat) → List Nat × ℚ)
    (n : Nat) (E : List (Nat × Nat)) (perms : Nat → List Nat)
    (hE : 0 < E.length) :
    shuffled_comdet detect n E perms 1 = ((detect n E).2, (detect n E).1) := by
  rfl

/-- C7 witness: the hypothesis and the conclusion at a concrete one-edge
graph. -/
theorem trial_count_zero_canonical_witness :
    0 < ([((0 : Nat), (1 : Nat))] : List (Nat × Nat)).length
    ∧ shuffled_comdet trivialDetect 2 [(0, 1)] (fun _ => [1, 0]) 1
        = ((trivialDetect 2 [(0, 1)]).2, (trivialDetect 2 [(0, 1)]).1) :=
  ⟨by decide,
    trial_count_zero_canonical trivialDetect 2 [(0, 1)] (fun _ => [1, 0])
      (by decide)⟩

/-- C10: calling the entry point with `numiter = 1` feeds zero task tokens to
the task channel (the generator receives `numiter - 1 = 0`), so no shuffled
trial runs and the returned result is exactly the canonical unpermuted
detection result: `numiter` counts the canonical run as one of the requested
detections. -/
theorem numiter_one_no_tasks
    (detect : Nat → List (Nat × Nat) → List Nat × ℚ)
    (n : Nat) (E : List (Nat × Nat)) (perms : Nat → List Nat) (w : Nat) :
    entry_task_tokens 1 w = List.replicate w Token.stop
    ∧ (entry_task_tokens 1 w).countP (fun t => ! t.isStop) = 0
    ∧ shuffled_comdet detect n E perms 1 = ((detect n E).2, (detect n E).1) := by
  refine ⟨?_, ?_, rfl⟩
  · simp [entry_task_tokens, add2inqueue, List.map_const']
  · simp [entry_task_tokens, add2inqueue, List.countP_map, Function.comp,
      Token.isStop]

/-- C9: with a single worker (sequential mode selects a pool of exactly one
process) and a fixed seed, two runs of the entry point that draw the same
shuffled sequence for every trial return the identical best result, same
modularity and same membership. -/
theorem sequential_deterministic
    (detect : Nat → List (Nat × Nat) → List Nat × ℚ)
    (n : Nat) (E : List (Nat × Nat)) (numiter c : Nat)
    (p1 p2 : Nat → List Nat) (h : ∀ i, p1 i = p2 i) :
    numprocs false c = 1
    ∧ shuffled_comdet detect n E p1 numiter
        = shuffled_comdet detect n E p2 numiter := by
  refine ⟨rfl, ?_⟩
  rw [funext h]

/-- C9 witness: the hypothesis and the conclusion at a concrete graph with a
concrete permutation stream. -/
theorem sequential_deterministic_witness :
    (∀ i : Nat, (fun _ : Nat => [1, 0]) i = (fun _ : Nat => [1, 0]) i)
    ∧ (numprocs false 4 = 1
      ∧ shuffled_comdet trivialDetect 2 [(0, 1)] (fun _ => [1, 0]) 3
          = shuffled_comdet trivialDetect 2 [(0, 1)] (fun _ => [1, 0]) 3) :=
  ⟨fun _ => rfl,
    sequential_deterministic trivialDetect 2 [(0, 1)] 3 4
      (fun _ => [1, 0]) (fun _ => [1, 0]) (fun _ => rfl)⟩

/-- Auxiliary: reading the recovered membership at an original node `i` gives
the engine membership at the shuffled position `rifrullo[i]`. -/
lemma recover_membership_getD (m' p : List Nat) (i : Nat)
    (hi : i < m'.length) :
    (recover_membership m' p).getD i 0 = m'.getD (p.getD i 0) 0 := by
  rw [recover_membership, List.getD_eq_getElem]
  · simp
  · simpa using hi

/-- C5: in every trial the worker relabels each edge `(u, v)` of the input
edge list to `(π(u), π(v))` preserving edge order and edge count, runs
detection on the relabeled edge list, and recovers the original-space
membership as `membership[i] = membership'[π(i)]` for every original node
`i`, where `π` is the shuffled node sequence of that trial. -/
theorem worker_relabel_recover
    (detect : Nat → List (Nat × Nat) → List Nat × ℚ)
    (n : Nat) (E : List (Nat × Nat)) (p : List Nat) (j i : Nat)
    (hj : j < E.length)
    (hi : i < ((detect n (get_new_edgelist E p)).1).length) :
    (get_new_edgelist E p).length = E.length
    ∧ (get_new_edgelist E p).getD j (0, 0)
        = (p.getD (E.getD j (0, 0)).1 0, p.getD (E.getD j (0, 0)).2 0)
    ∧ (comdet_worker detect n E p).2.length
        = ((detect n (get_new_edgelist E p)).1).length
    ∧ (comdet_worker detect n E p).2.getD i 0
        = ((detect n (get_new_edgelist E p)).1).getD (p.getD i 0) 0 := by
  refine ⟨by simp [get_new_edgelist], ?_, ?_, ?_⟩
  · rw [List.getD_eq_getElem _ _ (by simpa [get_new_edgelist] using hj),
      List.getD_eq_getElem _ _ hj]
    simp [get_new_edgelist]
  · simp [comdet_worker, recover_membership]
  · have h := recover_membership_getD ((detect n (get_new_edgelist E p)).1) p i hi
    simpa [comdet_worker] using h

/-- Auxiliary: a shuffled node sequence, being a permutation of
`range n`, has length `n`. -/
lemma perm_length (n : Nat) (p : List Nat) (hp : p.Perm (List.range n)) :
    p.length = n := by
  simpa using hp.length_eq

/-- Auxiliary: an entry of a shuffled node sequence read at a position below
`n` lies below `n`. -/
lemma perm_getD_lt (n : Nat) (p : List Nat) (hp : p.Perm (List.range n))
    (i : Nat) (hi : i < n) : p.getD i 0 < n := by
  have hl : p.length = n := perm_length n p hp
  rw [List.getD_eq_getElem _ _ (by omega)]
  have hmem : p[i] ∈ p := List.getElem_mem _
  simpa using hp.mem_iff.mp hmem

/-- Auxiliary: the membership recovered from an engine membership of length
`n` through a shuffled node sequence is a valid assignment over the original
node ids. -/
lemma recover_membership_valid (n : Nat) (p m' : List Nat)
    (hp : p.Perm (List.range n)) (hm : m'.length = n)
    (hv : ∀ v ∈ m', v < n) :
    valid_membership n (recover_membership m' p) := by
  constructor
  · simp [recover_membership, hm]
  · intro v hvmem
    rw [recover_membership] at hvmem
    rcases List.mem_map.1 hvmem with ⟨i, hi, hvi⟩
    rw [List.mem_range] at hi
    have hi' : i < n := hm ▸ hi
    have hlt : p.getD i 0 < n := perm_getD_lt n p hp i hi'
    rw [← hvi, List.getD_eq_getElem _ _ (by omega : p.getD i 0 < m'.length)]
    exact hv _ (List.getElem_mem _)

/-- Auxiliary: the reducer's fold preserves validity of the accumulator's
membership whenever the seed and every incoming result are valid. -/
lemma foldl_reduceStep_valid (n : Nat) (init : ℚ × List Nat)
    (rs : List (ℚ × List Nat)) (hinit : valid_membership n init.2)
    (hrs : ∀ r ∈ rs, valid_membership n r.2) :
    valid_membership n ((rs.foldl reduceStep init)).2 := by
  induction rs generalizing init with
  | nil => exact hinit
  | cons r rs ih =>
    refine ih (reduceStep init r) ?_
      (fun x hx => hrs x (List.mem_cons_of_mem _ hx))
    unfold reduceStep
    split
    · exact hrs r (List.mem_cons_self _ _)
    · exact hinit

/-- C8: every membership produced in the pipeline is a valid assignment over
the original node ids, length `n` with every community id below `n`: the
membership a worker recovers from an engine membership of length `n`, the
reducer's accumulator after any sequence of updates from a valid seed and
valid results, and the final membership returned by the entry point when the
engine always returns valid memberships and every trial draws a permutation
of `range n`. -/
theorem membership_validity
    (detect : Nat → List (Nat × Nat) → List Nat × ℚ)
    (n numiter : Nat) (E : List (Nat × Nat)) (perms : Nat → List Nat)
    (p m' : List Nat) (init : ℚ × List Nat) (rs : List (ℚ × List Nat))
    (hp : p.Perm (List.range n)) (hm : m'.length = n)
    (hv : ∀ v ∈ m', v < n)
    (hinit : valid_membership n init.2)
    (hrs : ∀ r ∈ rs, valid_membership n r.2)
    (hdl : ∀ es, ((detect n es).1).length = n)
    (hdv : ∀ es, ∀ v ∈ (detect n es).1, v < n)
    (hperms : ∀ i, (perms i).Perm (List.range n)) :
    valid_membership n (recover_membership m' p)
    ∧ valid_membership n (outqueue2res init rs).2
    ∧ valid_membership n (shuffled_comdet detect n E perms numiter).2 := by
  refine ⟨recover_membership_valid n p m' hp hm hv,
    foldl_reduceStep_valid n init rs hinit hrs, ?_⟩
  show valid_membership n
    ((((List.range (numiter - 1)).map
      (fun i => comdet_worker detect n E (perms i))).foldl reduceStep
        ((detect n E).2, (detect n E).1)).2)
  refine foldl_reduceStep_valid n _ _ ⟨hdl E, hdv E⟩ ?_
  intro r hr
  rcases List.mem_map.1 hr with ⟨i, _, hri⟩
  rw [← hri]
  exact recover_membership_valid n (perms i) _ (hperms i) (hdl _) (hdv _)

/-- C8 witness: all hypotheses and the conclusion at a concrete graph,
permutation, engine membership, accumulator seed and result list. -/
theorem membership_validity_witness :
    ([1, 0] : List Nat).Perm (List.range 2)
    ∧ ([0, 1] : List Nat).length = 2
    ∧ (∀ v ∈ ([0, 1] : List Nat), v < 2)
    ∧ valid_membership 2 (((0 : ℚ), [0, 0]).2)
    ∧ (∀ r ∈ ([((1 : ℚ), [0, 1])] : List (ℚ × List Nat)), valid_membership 2 r.2)
    ∧ (∀ es, ((trivialDetect 2 es).1).length = 2)
    ∧ (∀ es, ∀ v ∈ (trivialDetect 2 es).1, v < 2)
    ∧ (∀ i : Nat, ((fun _ : Nat => [1, 0]) i).Perm (List.range 2))
    ∧ (valid_membership 2 (recover_membership [0, 1] [1, 0])
      ∧ valid_membership 2 (outqueue2res ((0 : ℚ), [0, 0]) [((1 : ℚ), [0, 1])]).2
      ∧ valid_membership 2
          (shuffled_comdet trivialDetect 2 [(0, 1)] (fun _ => [1, 0]) 2).2) :=
  ⟨by decide, rfl, by decide, ⟨rfl, by decide⟩,
    fun r hr => by
      rw [List.mem_singleton] at hr
      rw [hr]
      exact ⟨rfl, by decide⟩,
    fun _ => rfl,
    fun _ => by
      show ∀ v ∈ ([0, 0] : List Nat), v < 2
      decide,
    fun _ => by
      show ([1, 0] : List Nat).Perm (List.range 2)
      decide,
    membership_validity trivialDetect 2 2 [(0, 1)] (fun _ => [1, 0])
      [1, 0] [0, 1] ((0 : ℚ), [0, 0]) [((1 : ℚ), [0, 1])]
      (by decide) rfl (by decide) ⟨rfl, by decide⟩
      (fun r hr => by
        rw [List.mem_singleton] at hr
        rw [hr]
        exact ⟨rfl, by decide⟩)
      (fun _ => rfl)
      (fun _ => by
        show ∀ v ∈ ([0, 0] : List Nat), v < 2
        decide)
      (fun _ => by
        show ([1, 0] : List Nat).Perm (List.range 2)
        decide)⟩

/-- Auxiliary: a shuffled node sequence has no duplicate entries. -/
lemma perm_nodup (n : Nat) (p : List Nat) (hp : p.Perm (List.range n)) :
    p.Nodup :=
  hp.nodup_iff.mpr (List.nodup_range n)

/-- Auxiliary: reading a shuffled node sequence is injective at positions
below `n`. -/
lemma perm_getD_inj (n : Nat) (p : List Nat) (hp : p.Perm (List.range n))
    (i j : Nat) (hi : i < n) (hj : j < n) :
    p.getD i 0 = p.getD j 0 ↔ i = j := by
  have hl : p.length = n := perm_length n p hp
  rw [List.getD_eq_getElem _ _ (by omega), List.getD_eq_getElem _ _ (by omega)]
  exact (perm_nodup n p hp).getElem_inj_iff

/-- Auxiliary: the position of a node below `n` in a shuffled node sequence
is below `n`. -/
lemma perm_indexOf_lt (n : Nat) (p : List Nat) (hp : p.Perm (List.range n))
    (j : Nat) (hj : j < n) : p.indexOf j < n := by
  have hl : p.length = n := perm_length n p hp
  rw [← hl]
  exact List.indexOf_lt_length.mpr (hp.mem_iff.mpr (by simpa using hj))

/-- Auxiliary: reading the sequence at the position of a node below `n`
gives back that node. -/
lemma perm_getD_indexOf (n : Nat) (p : List Nat) (hp : p.Perm (List.range n))
    (j : Nat) (hj : j < n) : p.getD (p.indexOf j) 0 = j := by
  have hl : p.length = n := perm_length n p hp
  have hmem : j ∈ p := hp.mem_iff.mpr (by simpa using hj)
  rw [List.getD_eq_getElem _ _
    (by have := perm_indexOf_lt n p hp j hj; omega)]
  exact List.getElem_indexOf (List.indexOf_lt_length.mpr hmem)

/-- Auxiliary: the position in the sequence of the entry read at `i` is `i`
itself. -/
lemma perm_indexOf_getD (n : Nat) (p : List Nat) (hp : p.Perm (List.range n))
    (i : Nat) (hi : i < n) : p.indexOf (p.getD i 0) = i := by
  have hl : p.length = n := perm_length n p hp
  rw [List.getD_eq_getElem _ _ (by omega)]
  exact List.indexOf_getElem (perm_nodup n p hp) i (by omega)

/-- Auxiliary: relabeling the edge list preserves the degree of every node,
read at its relabeled position. -/
lemma degree_relabel (n : Nat) (E : List (Nat × Nat)) (p : List Nat)
    (hE : ∀ e ∈ E, e.1 < n ∧ e.2 < n) (hp : p.Perm (List.range n))
    (i : Nat) (hi : i < n) :
    degree (get_new_edgelist E p) (p.getD i 0) = degree E i := by
  unfold degree get_new_edgelist
  rw [List.countP_map, List.countP_map]
  congr 1
  · refine List.countP_congr (fun e he => ?_)
    simp only [Function.comp_apply, decide_eq_true_eq]
    exact perm_getD_inj n p hp e.1 i (hE e he).1 hi
  · refine List.countP_congr (fun e he => ?_)
    simp only [Function.comp_apply, decide_eq_true_eq]
    exact perm_getD_inj n p hp e.2 i (hE e he).2 hi

/-- Auxiliary: relabeling the edge list preserves the number of edge slots
joining any two nodes, read at their relabeled positions. -/
lemma adjCount_relabel (n : Nat) (E : List (Nat × Nat)) (p : List Nat)
    (hE : ∀ e ∈ E, e.1 < n ∧ e.2 < n) (hp : p.Perm (List.range n))
    (i j : Nat) (hi : i < n) (hj : j < n) :
    adjCount (get_new_edgelist E p) (p.getD i 0) (p.getD j 0)
      = adjCount E i j := by
  unfold adjCount get_new_edgelist
  rw [List.countP_map, List.countP_map]
  congr 1
  · refine List.countP_congr (fun e he => ?_)
    simp only [Function.comp_apply, decide_eq_true_eq]
    exact and_congr (perm_getD_inj n p hp e.1 i (hE e he).1 hi)
      (perm_getD_inj n p hp e.2 j (hE e he).2 hj)
  · refine List.countP_congr (fun e he => ?_)
    simp only [Function.comp_apply, decide_eq_true_eq]
    exact and_congr (perm_getD_inj n p hp e.1 j (hE e he).1 hj)
      (perm_getD_inj n p hp e.2 i (hE e he).2 hi)

/-- Auxiliary: one modularity summand of the relabeled graph under the
engine membership, at the relabeled node pair, equals the summand of the
original graph under the recovered membership. -/
lemma modTerm_relabel (n : Nat) (E : List (Nat × Nat)) (p m' : List Nat)
    (hE : ∀ e ∈ E, e.1 < n ∧ e.2 < n) (hp : p.Perm (List.range n))
    (hm : m'.length = n) (i j : Nat) (hi : i < n) (hj : j < n) :
    modTerm (get_new_edgelist E p) m' (p.getD i 0) (p.getD j 0)
      = modTerm E (recover_membership m' p) i j := by
  unfold modTerm
  rw [adjCount_relabel n E p hE hp i j hi hj,
    degree_relabel n E p hE hp i hi, degree_relabel n E p hE hp j hj]
  have hlen : (get_new_edgelist E p).length = E.length := by
    simp [get_new_edgelist]
  rw [hlen]
  have h1 : (recover_membership m' p).getD i 0 = m'.getD (p.getD i 0) 0 :=
    recover_membership_getD m' p i (by omega)
  have h2 : (recover_membership m' p).getD j 0 = m'.getD (p.getD j 0) 0 :=
    recover_membership_getD m' p j (by omega)
  rw [h1, h2]

/-- Auxiliary: the double modularity sum of the relabeled graph under the
engine membership equals the double sum of the original graph under the
recovered membership, by reindexing both sums along the permutation. -/
lemma modularity_sum_relabel (n : Nat) (E : List (Nat × Nat)) (p m' : List Nat)
    (hE : ∀ e ∈ E, e.1 < n ∧ e.2 < n) (hp : p.Perm (List.range n))
    (hm : m'.length = n) :
    ∑ i ∈ Finset.range n, ∑ j ∈ Finset.range n,
        modTerm (get_new_edgelist E p) m' i j
      = ∑ i ∈ Finset.range n, ∑ j ∈ Finset.range n,
          modTerm E (recover_membership m' p) i j := by
  refine (Finset.sum_nbij' (fun a => p.getD a 0) (fun b => p.indexOf b)
    ?_ ?_ ?_ ?_ ?_).symm
  · intro a ha
    rw [Finset.mem_range] at ha ⊢
    exact perm_getD_lt n p hp a ha
  · intro b hb
    rw [Finset.mem_range] at hb ⊢
    exact perm_indexOf_lt n p hp b hb
  · intro a ha
    rw [Finset.mem_range] at ha
    exact perm_indexOf_getD n p hp a ha
  · intro b hb
    rw [Finset.mem_range] at hb
    exact perm_getD_indexOf n p hp b hb
  · intro a ha
    rw [Finset.mem_range] at ha
    refine Finset.sum_nbij' (fun b => p.getD b 0) (fun c => p.indexOf c)
      ?_ ?_ ?_ ?_ ?_
    · intro b hb
      rw [Finset.mem_range] at hb ⊢
      exact perm_getD_lt n p hp b hb
    · intro c hc
      rw [Finset.mem_range] at hc ⊢
      exact perm_indexOf_lt n p hp c hc
    · intro b hb
      rw [Finset.mem_range] at hb
      exact perm_indexOf_getD n p hp b hb
    · intro c hc
      rw [Finset.mem_range] at hc
      exact perm_getD_indexOf n p hp c hc
    · intro b hb
      rw [Finset.mem_range] at hb
      exact (modTerm_relabel n E p m' hE hp hm a b ha hb).symm

/-- C2: for every trial permutation, the modularity score of the relabeled
graph under the engine membership equals the modularity of the original
graph under the recovered original-space membership; in particular, when the
engine scores its own membership with the modelled modularity, the score a
worker pairs with a recovered membership is that membership's modularity on
the original graph. -/
theorem modularity_relabel_invariant
    (detect : Nat → List (Nat × Nat) → List Nat × ℚ)
    (n : Nat) (E : List (Nat × Nat)) (p m' : List Nat)
    (hE : ∀ e ∈ E, e.1 < n ∧ e.2 < n) (hp : p.Perm (List.range n))
    (hm : m'.length = n)
    (hdl : ((detect n (get_new_edgelist E p)).1).length = n)
    (hdc : (detect n (get_new_edgelist E p)).2
      = modularity n (get_new_edgelist E p)
          ((detect n (get_new_edgelist E p)).1)) :
    modularity n (get_new_edgelist E p) m'
        = modularity n E (recover_membership m' p)
    ∧ (comdet_worker detect n E p).1
        = modularity n E ((comdet_worker detect n E p).2) := by
  have key : ∀ m'' : List Nat, m''.length = n →
      modularity n (get_new_edgelist E p) m''
        = modularity n E (recover_membership m'' p) := by
    intro m'' hm''
    unfold modularity
    have hlen : (get_new_edgelist E p).length = E.length := by
      simp [get_new_edgelist]
    rw [hlen, modularity_sum_relabel n E p m'' hE hp hm'']
  refine ⟨key m' hm, ?_⟩
  show (detect n (get_new_edgelist E p)).2
    = modularity n E
        (recover_membership ((detect n (get_new_edgelist E p)).1) p)
  rw [hdc]
  exact key _ hdl

/-- C2 witness: all hypotheses and the conclusion at a concrete one-edge
graph with a concrete permutation, engine membership and engine. -/
theorem modularity_relabel_invariant_witness :
    (∀ e ∈ ([(0, 1)] : List (Nat × Nat)), e.1 < 2 ∧ e.2 < 2)
    ∧ ([1, 0] : List Nat).Perm (List.range 2)
    ∧ ([0, 1] : List Nat).length = 2
    ∧ ((trivialDetect 2 (get_new_edgelist [(0, 1)] [1, 0])).1).length = 2
    ∧ (trivialDetect 2 (get_new_edgelist [(0, 1)] [1, 0])).2
        = modularity 2 (get_new_edgelist [(0, 1)] [1, 0])
            ((trivialDetect 2 (get_new_edgelist [(0, 1)] [1, 0])).1)
    ∧ (modularity 2 (get_new_edgelist [(0, 1)] [1, 0]) [0, 1]
          = modularity 2 [(0, 1)] (recover_membership [0, 1] [1, 0])
      ∧ (comdet_worker trivialDetect 2 [(0, 1)] [1, 0]).1
          = modularity 2 [(0, 1)]
              ((comdet_worker trivialDetect 2 [(0, 1)] [1, 0]).2)) :=
  ⟨by decide, by decide, rfl, rfl, rfl,
    modularity_relabel_invariant trivialDetect 2 [(0, 1)] [1, 0] [0, 1]
      (by decide) (by decide) rfl rfl rfl⟩

/-- C5 witness: the hypotheses and the conclusion at a concrete one-edge
graph with a concrete permutation, edge position and node. -/
theorem worker_relabel_recover_witness :
    (0 : Nat) < ([(0, 1)] : List (Nat × Nat)).length
    ∧ (0 : Nat) < ((trivialDetect 2
        (get_new_edgelist [(0, 1)] [1, 0])).1).length
    ∧ ((get_new_edgelist [(0, 1)] [1, 0]).length
          = ([(0, 1)] : List (Nat × Nat)).length
      ∧ (get_new_edgelist [(0, 1)] [1, 0]).getD 0 (0, 0)
          = (([1, 0] : List Nat).getD
                ((([(0, 1)] : List (Nat × Nat)).getD 0 (0, 0)).1) 0,
              ([1, 0] : List Nat).getD
                ((([(0, 1)] : List (Nat × Nat)).getD 0 (0, 0)).2) 0)
      ∧ (comdet_worker trivialDetect 2 [(0, 1)] [1, 0]).2.length
          = ((trivialDetect 2 (get_new_edgelist [(0, 1)] [1, 0])).1).length
      ∧ (comdet_worker trivialDetect 2 [(0, 1)] [1, 0]).2.getD 0 0
          = ((trivialDetect 2 (get_new_edgelist [(0, 1)] [1, 0])).1).getD
              (([1, 0] : List Nat).getD 0 0) 0) :=
  ⟨by decide, by decide,
    worker_relabel_recover trivialDetect 2 [(0, 1)] [1, 0] 0 0
      (by decide) (by decide)⟩
